import Mathlib

/-!
Shallow embedding of the gosnapdrop signaling server (`main.go`, `utils.go`).

Go maps are modelled as association lists with `alookup` / `aset` / `adel`
mirroring map indexing, assignment and `delete`; Go's randomized map
iteration order is modelled by iterating the list (the spec treats order as
irrelevant).  Stateful handlers become pure functions from a `Server` state
to a new state plus the list of frames sent (`Event`s), with socket closure
recorded in a `closed` ledger.  Time is a `Nat` of seconds on a monotonic
clock.
-/

namespace Gosnapdrop

/-- A (flat) JSON value, as stored in Go's `map[string]interface{}` messages.
Nested values never matter to the server, which never inspects payload
fields. -/
inductive JVal where
  | str (s : String)
  | num (n : Int)
  | boolean (b : Bool)
  | null
deriving DecidableEq, Repr

/-- A decoded JSON object, the shape of every routed message. -/
abbrev Msg := List (String × JVal)

/-- Go map indexing `m[k]` (first binding wins; keys are unique in states
built by `aset`/`adel`). -/
def alookup {β : Type} (k : String) : List (String × β) → Option β
  | [] => none
  | kv :: rest => if kv.1 = k then some kv.2 else alookup k rest

/-- Go `delete(m, k)`. -/
def adel {β : Type} (k : String) : List (String × β) → List (String × β)
  | [] => []
  | kv :: rest => if kv.1 = k then adel k rest else kv :: adel k rest

/-- Go map assignment `m[k] = v` (replace any existing binding). -/
def aset {β : Type} (k : String) (v : β) (m : List (String × β)) :
    List (String × β) :=
  adel k m ++ [(k, v)]

/-- The keys of a map. -/
def keys {β : Type} (m : List (String × β)) : List String := m.map Prod.fst

/-- The Go type assertion `m[k].(string)`: succeeds only when the key is
present and holds a string. -/
def getStr (m : Msg) (k : String) : Option String :=
  match alookup k m with
  | some (JVal.str s) => some s
  | _ => none

/-- Record `PeerName` from `main.go`. -/
structure PeerName where
  model : String
  os : String
  browser : String
  type : String
  deviceName : String
  displayName : String
deriving DecidableEq, Repr

/-- Record `Peer` from `main.go`.  The websocket handle and timer are modelled
outside the record: socket closure goes to the server's `closed` ledger and
the pending-timer state is the explicit result of `keepAlive`. -/
structure Peer where
  id : String
  ip : String
  rtcSupported : Bool
  name : PeerName
  lastBeat : Nat
deriving DecidableEq, Repr

/-- The public info record built by `Peer.getInfo` in `utils.go`. -/
structure PeerInfo where
  id : String
  name : PeerName
  rtcSupported : Bool
deriving DecidableEq, Repr

def Peer.getInfo (p : Peer) : PeerInfo :=
  { id := p.id, name := p.name, rtcSupported := p.rtcSupported }

/-- One frame written by the server, tagged with the id of the peer whose
socket it is written to, plus the socket-close effect. -/
inductive Event where
  | peerJoined (target : String) (peer : PeerInfo)
  | peers (target : String) (list : List PeerInfo)
  | peerLeft (target : String) (peerId : String)
  | ping (target : String)
  | relayed (target : String) (msg : Msg)
  | closeSocket (peerId : String)
deriving DecidableEq, Repr

/-- A room: Go's `map[string]*Peer`, keyed by peer id. -/
abbrev Room := List (String × Peer)

/-- The `SnapdropServer` state: `rooms` is Go's
`map[string]map[string]*Peer` keyed by IP; `closed` records the ids of
peers whose sockets have been closed. -/
structure Server where
  rooms : List (String × Room)
  closed : List String
deriving DecidableEq, Repr

def initServer : Server := { rooms := [], closed := [] }

/-! ## utils.go -/

def colors : List String :=
  ["Red", "Blue", "Green", "Yellow", "Purple", "Orange", "Pink"]

def animals : List String :=
  ["Dog", "Cat", "Elephant", "Lion", "Tiger", "Bear", "Penguin"]

/-- One iteration of `hashString`'s loop.  In Go the accumulator is an
`int64`: `hash = ((hash << 5) - hash) + int64(c)` wraps modulo 2^64 and the
mask `hash & 0x7FFFFFFFFFFFFFFF` keeps the low 63 bits.  For a non-negative
accumulator (the mask guarantees this from the second iteration on, and the
start value is 0) the two steps together equal reduction modulo 2^63 of the
exact integer `31*hash + c`, since 2^63 divides 2^64. -/
def hashStep (hash : Int) (c : Char) : Int :=
  (hash * 32 - hash + c.toNat) % (2 ^ 63 : Int)

/-- Function `hashString` from `utils.go`; `for _, c := range s` iterates the runes
of the string, modelled as a `List Char`. -/
def hashString (s : List Char) : Int := s.foldl hashStep 0

/-- Function `abs` from `utils.go`. -/
def abs (x : Int) : Int := if x < 0 then -x else x

/-- Function `generateDisplayName` from `utils.go`.  The Go index expressions
`colors[colorIndex]` would panic out of range; the index is provably below
7, so the `getD` default is never used. -/
def generateDisplayName (seed : List Char) : String :=
  let seedInt : Int := hashString seed
  let colorIndex : Int := abs seedInt % (colors.length : Int)
  let animalIndex : Int := abs seedInt % (animals.length : Int)
  (colors.getD colorIndex.toNat "") ++ " " ++ (animals.getD animalIndex.toNat "")

/-! ## main.go handlers -/

/-- Function `joinRoom` from `main.go`: materialize the (possibly absent) room,
notify current members, send the membership snapshot to the joiner, and
insert the joiner last. -/
def joinRoom (s : Server) (p : Peer) : Server × List Event :=
  let room := (alookup p.ip s.rooms).getD []
  let joinedEvs := room.map (fun kv => Event.peerJoined kv.2.id p.getInfo)
  let snapshot := room.map (fun kv => kv.2.getInfo)
  ({ s with rooms := aset p.ip (aset p.id p room) s.rooms },
   joinedEvs ++ [Event.peers p.id snapshot])

/-- Function `leaveRoom` from `main.go`. -/
def leaveRoom (s : Server) (p : Peer) : Server × List Event :=
  match alookup p.ip s.rooms with
  | none => (s, [])
  | some room =>
    match alookup p.id room with
    | none => (s, [])
    | some _ =>
      let room' := adel p.id room
      if room' = [] then
        ({ rooms := adel p.ip s.rooms, closed := p.id :: s.closed },
         [Event.closeSocket p.id])
      else
        ({ rooms := aset p.ip room' s.rooms, closed := p.id :: s.closed },
         Event.closeSocket p.id ::
           room'.map (fun kv => Event.peerLeft kv.2.id p.id))

/-- Function `handleRelayMessage` from `main.go`: look up the `to` peer in the
sender's own room only; on success deliver the message with `to` removed
and `sender` set to the sender's id.  The server state is never changed. -/
def handleRelayMessage (s : Server) (p : Peer) (msg : Msg) : List Event :=
  match getStr msg "to" with
  | none => []
  | some dest =>
    match (alookup p.ip s.rooms).bind (alookup dest) with
    | none => []
    | some recipient =>
      [Event.relayed recipient.id (aset "sender" (JVal.str p.id) (adel "to" msg))]

/-- One inbound websocket frame, after the transport read: a non-text
frame, a text frame whose bytes fail `json.Unmarshal`, or a decoded
object. -/
inductive Frame where
  | binary
  | malformedText
  | text (msg : Msg)
deriving DecidableEq, Repr

/-- Result of routing one frame: the new server state and peer record, the
frames sent, and whether the receive loop continues. -/
structure StepResult where
  server : Server
  peer : Peer
  events : List Event
  continues : Bool
deriving DecidableEq, Repr

/-- One iteration of `handleMessages` from `main.go`, given the frame just
read and the current time. -/
def handleFrame (s : Server) (p : Peer) (fr : Frame) (now : Nat) : StepResult :=
  match fr with
  | Frame.binary => ⟨s, p, [], true⟩
  | Frame.malformedText => ⟨s, p, [], true⟩
  | Frame.text msg =>
    match getStr msg "type" with
    | none => ⟨s, p, [], true⟩
    | some t =>
      if t = "disconnect" then ⟨s, p, [], false⟩
      else if t = "pong" then ⟨s, { p with lastBeat := now }, [], true⟩
      else ⟨s, p, handleRelayMessage s p msg, true⟩

/-- Function `keepAlive` from `main.go`: one firing of the per-peer timer.  Returns
the new state, the frames sent, and the time of the single next scheduled
firing (`none` when the peer was declared dead and no successor timer is
set).  `timeout` is 30 seconds. -/
def keepAlive (s : Server) (p : Peer) (now : Nat) :
    Server × List Event × Option Nat :=
  if now - p.lastBeat > 2 * 30 then
    ((leaveRoom s p).1, (leaveRoom s p).2, none)
  else
    (s, [Event.ping p.id], some (now + 30))

/-! ## Registry operation traces -/

/-- A registry operation, as serialized by the registry mutex. -/
inductive Op where
  | join (p : Peer)
  | leave (p : Peer)
deriving DecidableEq, Repr

/-- The locality an operation touches. -/
def Op.ip : Op → String
  | Op.join p => p.ip
  | Op.leave p => p.ip

/-- Apply one operation. -/
def applyOp (s : Server) (op : Op) : Server × List Event :=
  match op with
  | Op.join p => joinRoom s p
  | Op.leave p => leaveRoom s p

/-- Run a trace of operations, accumulating all sent frames. -/
def execOps (s : Server) : List Op → Server × List Event
  | [] => (s, [])
  | op :: rest =>
    let r := applyOp s op
    let r' := execOps r.1 rest
    (r'.1, r.2 ++ r'.2)

/-- The member ids of the room at locality `L` (empty when the room is
absent). -/
def roomIds (s : Server) (L : String) : List String :=
  keys ((alookup L s.rooms).getD [])

/-- Modelled on the spec wording "the peers that have joined and not yet
left": fold the trace over a plain list of ids, used as the abstract side
of the C3 refinement. -/
def joinedNotLeft : List Op → List String → List String
  | [], acc => acc
  | Op.join p :: rest, acc =>
      joinedNotLeft rest ((acc.filter (fun id => id != p.id)) ++ [p.id])
  | Op.leave p :: rest, acc =>
      joinedNotLeft rest (acc.filter (fun id => id != p.id))

/-- Whether `id` occurs anywhere in the registry or was already closed.  A
freshly generated UUID is active nowhere. -/
def idActive (s : Server) (id : String) : Bool :=
  s.rooms.any (fun r => (alookup id r.2).isSome) || s.closed.contains id

/-- A trace is fresh when every joining peer carries a never-before-seen
id, modelling collision-negligible UUID generation. -/
def freshTrace (s : Server) : List Op → Bool
  | [] => true
  | Op.join p :: rest => !idActive s p.id && freshTrace (joinRoom s p).1 rest
  | Op.leave p :: rest => freshTrace (leaveRoom s p).1 rest

/-- Number of occurrences of an event in a sent-frame list. -/
def eventCount (evs : List Event) (e : Event) : Nat :=
  (evs.filter (fun x => decide (x = e))).length

/-- The registry invariants of the spec's data model: every room entry
stores a peer whose id is its key and whose locality is the room's key; a
peer id occurs in at most one room; no peer in a room has a closed
socket. -/
def Inv (s : Server) : Prop :=
  (∀ r ∈ s.rooms, ∀ kv ∈ r.2, kv.2.id = kv.1 ∧ kv.2.ip = r.1) ∧
  (∀ r1 ∈ s.rooms, ∀ r2 ∈ s.rooms, ∀ kv1 ∈ r1.2, ∀ kv2 ∈ r2.2,
      kv1.1 = kv2.1 → r1 = r2) ∧
  (∀ r ∈ s.rooms, ∀ kv ∈ r.2, kv.1 ∉ s.closed)

/-! ## Sample values used by the concrete witnesses -/

def sampleName : PeerName :=
  { model := "", os := "Linux", browser := "Firefox", type := "",
    deviceName := "Linux Firefox", displayName := "Red Dog" }

def peerA : Peer :=
  { id := "A", ip := "10.0.0.5", rtcSupported := true, name := sampleName,
    lastBeat := 100 }

def peerB : Peer :=
  { id := "B", ip := "10.0.0.5", rtcSupported := true, name := sampleName,
    lastBeat := 100 }

def peerC : Peer :=
  { id := "C", ip := "192.168.1.9", rtcSupported := false, name := sampleName,
    lastBeat := 100 }

/-- A server with peers A and B in room 10.0.0.5 and C in room
192.168.1.9. -/
def sampleServer : Server :=
  { rooms := [("10.0.0.5", [("A", peerA), ("B", peerB)]),
              ("192.168.1.9", [("C", peerC)])],
    closed := [] }

def sampleMsg : Msg :=
  [("type", JVal.str "offer"), ("to", JVal.str "B"), ("sdp", JVal.str "v=0")]

/-! ## Association-list map lemmas -/

theorem alookup_append {β : Type} (k : String) (m n : List (String × β)) :
    alookup k (m ++ n) =
      (match alookup k m with
       | some v => some v
       | none => alookup k n) := by
  induction m with
  | nil => simp [alookup]
  | cons kv rest ih =>
    by_cases h : kv.1 = k <;> simp [alookup, h, ih]

theorem alookup_adel_self {β : Type} (k : String) (m : List (String × β)) :
    alookup k (adel k m) = none := by
  induction m with
  | nil => simp [adel, alookup]
  | cons kv rest ih =>
    by_cases h : kv.1 = k <;> simp [adel, alookup, h, ih]

theorem alookup_adel_ne {β : Type} {k k' : String} (m : List (String × β))
    (h : k' ≠ k) : alookup k' (adel k m) = alookup k' m := by
  induction m with
  | nil => rfl
  | cons kv rest ih =>
    by_cases hk : kv.1 = k
    · have hne : ¬ kv.1 = k' := by rw [hk]; exact fun e => h e.symm
      rw [adel, if_pos hk, ih, alookup, if_neg hne]
    · rw [adel, if_neg hk, alookup, alookup, ih]

theorem alookup_aset_self {β : Type} (k : String) (v : β)
    (m : List (String × β)) : alookup k (aset k v m) = some v := by
  unfold aset
  rw [alookup_append, alookup_adel_self]
  simp [alookup]

theorem alookup_aset_ne {β : Type} {k k' : String} (v : β)
    (m : List (String × β)) (h : k' ≠ k) :
    alookup k' (aset k v m) = alookup k' m := by
  unfold aset
  rw [alookup_append, alookup_adel_ne m h]
  have hne : ¬ (k = k') := fun e => h e.symm
  cases hm : alookup k' m with
  | none => simp [alookup, hne]
  | some w => simp

theorem mem_adel {β : Type} {kv : String × β} {k : String}
    {m : List (String × β)} : kv ∈ adel k m ↔ kv ∈ m ∧ kv.1 ≠ k := by
  induction m with
  | nil => simp [adel]
  | cons hd rest ih =>
    by_cases h : hd.1 = k
    · rw [adel, if_pos h, ih]
      simp only [List.mem_cons]
      constructor
      · rintro ⟨hm, hne⟩
        exact ⟨Or.inr hm, hne⟩
      · rintro ⟨hm | hm, hne⟩
        · subst hm; exact absurd h hne
        · exact ⟨hm, hne⟩
    · rw [adel, if_neg h]
      simp only [List.mem_cons, ih]
      constructor
      · rintro (rfl | ⟨hm, hne⟩)
        · exact ⟨Or.inl rfl, h⟩
        · exact ⟨Or.inr hm, hne⟩
      · rintro ⟨rfl | hm, hne⟩
        · exact Or.inl rfl
        · exact Or.inr ⟨hm, hne⟩

theorem mem_aset {β : Type} {kv : String × β} {k : String} {v : β}
    {m : List (String × β)} :
    kv ∈ aset k v m ↔ (kv ∈ m ∧ kv.1 ≠ k) ∨ kv = (k, v) := by
  unfold aset
  simp [List.mem_append, mem_adel]

theorem alookup_mem {β : Type} {k : String} {v : β} {m : List (String × β)}
    (h : alookup k m = some v) : (k, v) ∈ m := by
  induction m with
  | nil => simp [alookup] at h
  | cons kv rest ih =>
    by_cases hk : kv.1 = k
    · rw [alookup, if_pos hk] at h
      injection h with h2
      have hkv : kv = (k, v) := by
        obtain ⟨a, b⟩ := kv
        simp only at hk h2
        rw [hk, h2]
      rw [hkv]
      exact List.mem_cons_self _ _
    · rw [alookup, if_neg hk] at h
      exact List.mem_cons_of_mem _ (ih h)

theorem alookup_eq_none_iff {β : Type} {k : String} {m : List (String × β)} :
    alookup k m = none ↔ k ∉ keys m := by
  induction m with
  | nil => simp [alookup, keys]
  | cons kv rest ih =>
    by_cases hk : kv.1 = k
    · simp [alookup, keys, hk]
    · have hk' : ¬ k = kv.1 := fun e => hk e.symm
      simp [alookup, keys, hk, hk', ih]

theorem alookup_isSome_iff {β : Type} {k : String} {m : List (String × β)} :
    (alookup k m).isSome = true ↔ k ∈ keys m := by
  constructor
  · intro h
    by_contra hc
    rw [alookup_eq_none_iff.mpr hc] at h
    simp at h
  · intro hmem
    cases hs : alookup k m with
    | some v => simp
    | none => exact absurd hmem (by simpa using alookup_eq_none_iff.mp hs)

theorem mem_keys_adel {β : Type} {a k : String} {m : List (String × β)} :
    a ∈ keys (adel k m) ↔ a ∈ keys m ∧ a ≠ k := by
  unfold keys
  constructor
  · intro h
    obtain ⟨kv, hkv, rfl⟩ := List.mem_map.mp h
    obtain ⟨hm, hne⟩ := mem_adel.mp hkv
    exact ⟨List.mem_map_of_mem _ hm, hne⟩
  · rintro ⟨h, hne⟩
    obtain ⟨kv, hkv, rfl⟩ := List.mem_map.mp h
    exact List.mem_map_of_mem _ (mem_adel.mpr ⟨hkv, hne⟩)

theorem mem_keys_aset {β : Type} {a k : String} {v : β}
    {m : List (String × β)} :
    a ∈ keys (aset k v m) ↔ a ∈ keys m ∨ a = k := by
  unfold aset keys
  rw [List.map_append, List.mem_append]
  constructor
  · rintro (h | h)
    · exact Or.inl (mem_keys_adel.mp h).1
    · simp at h; exact Or.inr h
  · rintro (h | rfl)
    · by_cases hak : a = k
      · right; simp [hak]
      · exact Or.inl (mem_keys_adel.mpr ⟨h, hak⟩)
    · right; simp

theorem keys_nodup_adel {β : Type} {k : String} {m : List (String × β)}
    (h : (keys m).Nodup) : (keys (adel k m)).Nodup := by
  induction m with
  | nil => simp [adel, keys]
  | cons kv rest ih =>
    have h' : kv.1 ∉ keys rest ∧ (keys rest).Nodup := by
      simpa [keys, List.nodup_cons] using h
    by_cases hk : kv.1 = k
    · rw [adel, if_pos hk]
      exact ih h'.2
    · rw [adel, if_neg hk]
      have : keys (kv :: adel k rest) = kv.1 :: keys (adel k rest) := rfl
      rw [this, List.nodup_cons]
      exact ⟨fun hc => h'.1 (mem_keys_adel.mp hc).1, ih h'.2⟩

theorem keys_nodup_aset {β : Type} {k : String} {v : β}
    {m : List (String × β)} (h : (keys m).Nodup) :
    (keys (aset k v m)).Nodup := by
  unfold aset keys
  rw [List.map_append]
  simp only [List.map_cons, List.map_nil]
  rw [List.nodup_append]
  refine ⟨keys_nodup_adel h, List.nodup_singleton k, ?_⟩
  intro a ha hb
  simp only [List.mem_singleton] at hb
  subst hb
  exact (mem_keys_adel.mp ha).2 rfl

/-! ## utils.go: display names (C10) -/

theorem hashStep_nonneg (hash : Int) (c : Char) : 0 ≤ hashStep hash c := by
  unfold hashStep
  exact Int.emod_nonneg _ (by norm_num)

theorem hash_foldl_nonneg (l : List Char) (a : Int) (h : 0 ≤ a) :
    0 ≤ l.foldl hashStep a := by
  induction l generalizing a with
  | nil => exact h
  | cons c tl ih => exact ih _ (hashStep_nonneg a c)

theorem hashString_nonneg (s : List Char) : 0 ≤ hashString s :=
  hash_foldl_nonneg s 0 le_rfl

theorem displayName_pairs (n : Nat) (h : n < 7) :
    (colors.getD n "") ++ " " ++ (animals.getD n "") ∈
      ["Red Dog", "Blue Cat", "Green Elephant", "Yellow Lion",
       "Purple Tiger", "Orange Bear", "Pink Penguin"] := by
  interval_cases n <;> decide

/-- C10: `generateDisplayName` is a pure function of the seed; `hashString`
is non-negative, so `abs` is the identity on it, and since the same index
`abs(hash) mod 7` selects from both 7-element lists, the output is always
one of the 7 matched color-animal pairs. -/
theorem generateDisplayName_spec (seed : List Char) :
    0 ≤ hashString seed ∧
    abs (hashString seed) = hashString seed ∧
    generateDisplayName seed ∈
      ["Red Dog", "Blue Cat", "Green Elephant", "Yellow Lion",
       "Purple Tiger", "Orange Bear", "Pink Penguin"] := by
  have h0 := hashString_nonneg seed
  have habs : abs (hashString seed) = hashString seed := by
    unfold abs
    rw [if_neg (not_lt.mpr h0)]
  refine ⟨h0, habs, ?_⟩
  have hc7 : ((colors.length : Nat) : Int) = (7 : Int) := by rfl
  have ha7 : ((animals.length : Nat) : Int) = (7 : Int) := by rfl
  have h1 : 0 ≤ hashString seed % (7 : Int) := Int.emod_nonneg _ (by norm_num)
  have h2 : hashString seed % (7 : Int) < 7 := Int.emod_lt_of_pos _ (by norm_num)
  have hi : (hashString seed % (7 : Int)).toNat < 7 := by omega
  have key : generateDisplayName seed =
      (colors.getD (hashString seed % (7 : Int)).toNat "") ++ " " ++
      (animals.getD (hashString seed % (7 : Int)).toNat "") := by
    simp only [generateDisplayName]
    rw [hc7, ha7, habs]
  rw [key]
  exact displayName_pairs _ hi

/-! ## C1: relay routing -/

/-- C1: `handleRelayMessage` looks the recipient up only in the sender's
own room (keyed by the sender's IP); when the id is absent there —
including when the room itself is absent — nothing is sent, so a peer can
never be reached across localities; when present, the recipient receives
the payload with `to` removed, `sender` set to the sender's id, and every
other field unchanged.  The server state is never modified. -/
theorem handleRelayMessage_spec (s : Server) (p : Peer) (msg : Msg)
    (toId : String) (hto : getStr msg "to" = some toId) :
    ((alookup p.ip s.rooms).bind (alookup toId) = none →
        handleRelayMessage s p msg = []) ∧
    (∀ q, (alookup p.ip s.rooms).bind (alookup toId) = some q →
        handleRelayMessage s p msg =
          [Event.relayed q.id (aset "sender" (JVal.str p.id) (adel "to" msg))] ∧
        alookup "to" (aset "sender" (JVal.str p.id) (adel "to" msg)) = none ∧
        alookup "sender" (aset "sender" (JVal.str p.id) (adel "to" msg)) =
          some (JVal.str p.id) ∧
        (∀ k, k ≠ "to" → k ≠ "sender" →
          alookup k (aset "sender" (JVal.str p.id) (adel "to" msg)) =
            alookup k msg)) := by
  constructor
  · intro hnone
    simp [handleRelayMessage, hto, hnone]
  · intro q hq
    refine ⟨by simp [handleRelayMessage, hto, hq], ?_, ?_, ?_⟩
    · rw [alookup_aset_ne _ _ (by decide)]
      exact alookup_adel_self _ _
    · exact alookup_aset_self _ _ _
    · intro k hk1 hk2
      rw [alookup_aset_ne _ _ hk2, alookup_adel_ne _ hk1]

/-- Witness for C1: A relays an offer to B in the same room (delivered with
`to` stripped and `sender` added) — checked against a cross-locality
lookup in the same server: C is registered, but only in the other room. -/
theorem handleRelayMessage_spec_witness :
    (handleRelayMessage sampleServer peerA sampleMsg =
      [Event.relayed "B"
        (aset "sender" (JVal.str "A") (adel "to" sampleMsg))]) ∧
    (handleRelayMessage sampleServer peerA
        [("type", JVal.str "offer"), ("to", JVal.str "C")] = []) :=
  ⟨((handleRelayMessage_spec sampleServer peerA sampleMsg "B"
      (by decide)).2 peerB (by decide)).1,
   (handleRelayMessage_spec sampleServer peerA
      [("type", JVal.str "offer"), ("to", JVal.str "C")] "C"
      (by decide)).1 (by decide)⟩

/-! ## C7: the message router -/

/-- C7: the receive-loop router drops non-text frames, unparseable text
frames and documents whose `type` is missing or not a string, keeping the
connection alive; `disconnect` terminates the loop; `pong` only updates the
peer's `lastBeat` to now; any other `type` is treated as a relay request,
which is itself dropped when `to` is absent or not a string. -/
theorem handleFrame_spec (s : Server) (p : Peer) (now : Nat) :
    (handleFrame s p Frame.binary now = ⟨s, p, [], true⟩) ∧
    (handleFrame s p Frame.malformedText now = ⟨s, p, [], true⟩) ∧
    (∀ msg, getStr msg "type" = none →
        handleFrame s p (Frame.text msg) now = ⟨s, p, [], true⟩) ∧
    (∀ msg, getStr msg "type" = some "disconnect" →
        handleFrame s p (Frame.text msg) now = ⟨s, p, [], false⟩) ∧
    (∀ msg, getStr msg "type" = some "pong" →
        handleFrame s p (Frame.text msg) now =
          ⟨s, { p with lastBeat := now }, [], true⟩) ∧
    (∀ msg t, getStr msg "type" = some t → t ≠ "disconnect" → t ≠ "pong" →
        handleFrame s p (Frame.text msg) now =
          ⟨s, p, handleRelayMessage s p msg, true⟩ ∧
        (getStr msg "to" = none → handleRelayMessage s p msg = [])) := by
  refine ⟨rfl, rfl, ?_, ?_, ?_, ?_⟩
  · intro msg h; simp [handleFrame, h]
  · intro msg h; simp [handleFrame, h]
  · intro msg h; simp [handleFrame, h]
  · intro msg t h h1 h2
    refine ⟨by simp [handleFrame, h, h1, h2], fun hto => ?_⟩
    simp [handleRelayMessage, hto]

/-- Witness for C7: a pong frame updates only `lastBeat`; an offer without
a `to` field is dropped by the relay path. -/
theorem handleFrame_spec_witness :
    (handleFrame sampleServer peerA
        (Frame.text [("type", JVal.str "pong")]) 250 =
      ⟨sampleServer, { peerA with lastBeat := 250 }, [], true⟩) ∧
    (handleRelayMessage sampleServer peerA [("type", JVal.str "offer")] = []) :=
  ⟨(handleFrame_spec sampleServer peerA 250).2.2.2.2.1
      [("type", JVal.str "pong")] (by decide),
   (((handleFrame_spec sampleServer peerA 250).2.2.2.2.2
      [("type", JVal.str "offer")] "offer" (by decide) (by decide)
      (by decide)).2 (by decide))⟩

/-! ## C5: leave idempotence -/

theorem leaveRoom_noop (s : Server) (p : Peer)
    (h : (alookup p.ip s.rooms).bind (alookup p.id) = none) :
    leaveRoom s p = (s, []) := by
  unfold leaveRoom
  cases h1 : alookup p.ip s.rooms with
  | none => rfl
  | some room =>
    rw [h1] at h
    simp only [Option.some_bind] at h
    simp [h]

theorem leaveRoom_lookup_after (s : Server) (p : Peer) :
    (alookup p.ip (leaveRoom s p).1.rooms).bind (alookup p.id) = none := by
  unfold leaveRoom
  cases h1 : alookup p.ip s.rooms with
  | none => simp [h1]
  | some room =>
    cases h2 : alookup p.id room with
    | none => simp [h1, h2]
    | some q =>
      by_cases h3 : adel p.id room = []
      · simp [h2, h3, alookup_adel_self]
      · simp [h2, h3, alookup_aset_self, alookup_adel_self]

/-- C5: when the peer's room or its entry in it is absent, `leaveRoom` is a
complete no-op (same state, no frame sent, no socket closed); consequently
a second `leaveRoom` for the same peer changes nothing beyond the first. -/
theorem leaveRoom_idempotent (s : Server) (p : Peer) :
    ((alookup p.ip s.rooms).bind (alookup p.id) = none →
        leaveRoom s p = (s, [])) ∧
    leaveRoom (leaveRoom s p).1 p = ((leaveRoom s p).1, []) :=
  ⟨leaveRoom_noop s p, leaveRoom_noop _ p (leaveRoom_lookup_after s p)⟩

/-- Witness for C5: B leaves the sample room; leaving again is a no-op. -/
theorem leaveRoom_idempotent_witness :
    leaveRoom (leaveRoom sampleServer peerB).1 peerB =
      ((leaveRoom sampleServer peerB).1, []) :=
  (leaveRoom_idempotent sampleServer peerB).2

/-! ## C2: join broadcast and snapshot -/

/-- C2: `joinRoom` computes both the peer-joined broadcast and the "peers"
snapshot from the room as it was before the new peer is inserted, and
inserts last; hence with a fresh id the joiner gets no peer-joined about
itself and its snapshot — exactly the pre-insertion membership — excludes
itself. -/
theorem joinRoom_spec (s : Server) (p : Peer) :
    joinRoom s p =
      (Server.mk (aset p.ip (aset p.id p ((alookup p.ip s.rooms).getD []))
          s.rooms) s.closed,
       ((alookup p.ip s.rooms).getD ([] : Room)).map
           (fun kv => Event.peerJoined kv.2.id p.getInfo) ++
         [Event.peers p.id (((alookup p.ip s.rooms).getD ([] : Room)).map
           (fun kv => kv.2.getInfo))]) ∧
    ((∀ kv ∈ (alookup p.ip s.rooms).getD ([] : Room), kv.2.id = kv.1) →
      alookup p.id ((alookup p.ip s.rooms).getD ([] : Room)) = none →
      (∀ e ∈ (joinRoom s p).2, ∀ info, e ≠ Event.peerJoined p.id info) ∧
      (∀ info ∈ ((alookup p.ip s.rooms).getD ([] : Room)).map
          (fun kv => kv.2.getInfo), info.id ≠ p.id)) := by
  refine ⟨rfl, fun hwf hfresh => ?_⟩
  have hkeys : ∀ kv ∈ (alookup p.ip s.rooms).getD ([] : Room), kv.1 ≠ p.id := by
    intro kv hkv he
    exact (alookup_eq_none_iff.mp hfresh) (he ▸ List.mem_map_of_mem _ hkv)
  constructor
  · intro e he info
    simp only [joinRoom, List.mem_append, List.mem_map, List.mem_singleton] at he
    rcases he with ⟨kv, hkv, rfl⟩ | rfl
    · intro hc
      injection hc with h1 h2
      exact hkeys kv hkv ((hwf kv hkv).symm.trans h1)
    · intro hc
      cases hc
  · intro info hinfo
    obtain ⟨kv, hkv, rfl⟩ := List.mem_map.mp hinfo
    intro hc
    exact hkeys kv hkv ((hwf kv hkv).symm.trans hc)

/-- Witness for C2: B joining the room that already holds A yields exactly
a peer-joined to A followed by B's snapshot `[A]`, and B is inserted
last. -/
theorem joinRoom_spec_witness :
    joinRoom { rooms := [("10.0.0.5", [("A", peerA)])], closed := [] } peerB =
      ({ rooms := [("10.0.0.5", [("A", peerA), ("B", peerB)])], closed := [] },
       [Event.peerJoined "A" peerB.getInfo,
        Event.peers "B" [peerA.getInfo]]) := by
  have h := (joinRoom_spec
    { rooms := [("10.0.0.5", [("A", peerA)])], closed := [] } peerB).1
  rw [h]
  decide

/-! ## C4: a room exists iff it is non-empty -/

theorem joinRoom_state (s : Server) (p : Peer) :
    (joinRoom s p).1.rooms =
      aset p.ip (aset p.id p ((alookup p.ip s.rooms).getD [])) s.rooms := rfl

theorem joinRoom_preserves_nonempty (s : Server) (p : Peer)
    (h : ∀ L room, alookup L s.rooms = some room → room ≠ []) :
    ∀ L room, alookup L (joinRoom s p).1.rooms = some room → room ≠ [] := by
  intro L room hlook
  rw [joinRoom_state] at hlook
  by_cases hL : L = p.ip
  · subst hL
    rw [alookup_aset_self] at hlook
    injection hlook with he
    rw [← he]
    simp [aset]
  · rw [alookup_aset_ne _ _ hL] at hlook
    exact h L room hlook

theorem leaveRoom_present_last (s : Server) (p : Peer) (room : Room) (q : Peer)
    (h1 : alookup p.ip s.rooms = some room) (h2 : alookup p.id room = some q)
    (h3 : adel p.id room = []) :
    leaveRoom s p =
      (Server.mk (adel p.ip s.rooms) (p.id :: s.closed),
       [Event.closeSocket p.id]) := by
  simp [leaveRoom, h1, h2, h3]

theorem leaveRoom_present_rest (s : Server) (p : Peer) (room : Room) (q : Peer)
    (h1 : alookup p.ip s.rooms = some room) (h2 : alookup p.id room = some q)
    (h3 : adel p.id room ≠ []) :
    leaveRoom s p =
      (Server.mk (aset p.ip (adel p.id room) s.rooms) (p.id :: s.closed),
       Event.closeSocket p.id ::
         (adel p.id room).map (fun kv => Event.peerLeft kv.2.id p.id)) := by
  simp [leaveRoom, h1, h2, h3]

theorem leaveRoom_preserves_nonempty (s : Server) (p : Peer)
    (h : ∀ L room, alookup L s.rooms = some room → room ≠ []) :
    ∀ L room, alookup L (leaveRoom s p).1.rooms = some room → room ≠ [] := by
  cases h1 : alookup p.ip s.rooms with
  | none =>
    rw [leaveRoom_noop s p (by rw [h1]; rfl)]
    exact h
  | some r0 =>
    cases h2 : alookup p.id r0 with
    | none =>
      rw [leaveRoom_noop s p (by rw [h1]; simpa using h2)]
      exact h
    | some q =>
      by_cases h3 : adel p.id r0 = []
      · rw [leaveRoom_present_last s p r0 q h1 h2 h3]
        intro L room hlook
        by_cases hL : L = p.ip
        · subst hL
          rw [alookup_adel_self] at hlook
          cases hlook
        · rw [alookup_adel_ne _ hL] at hlook
          exact h L room hlook
      · rw [leaveRoom_present_rest s p r0 q h1 h2 h3]
        intro L room hlook
        by_cases hL : L = p.ip
        · subst hL
          rw [alookup_aset_self] at hlook
          injection hlook with he
          rw [← he]
          exact h3
        · rw [alookup_aset_ne _ _ hL] at hlook
          exact h L room hlook

theorem execOps_preserves_nonempty (ops : List Op) (s : Server)
    (h : ∀ L room, alookup L s.rooms = some room → room ≠ []) :
    ∀ L room, alookup L (execOps s ops).1.rooms = some room → room ≠ [] := by
  induction ops generalizing s with
  | nil => exact h
  | cons op rest ih =>
    cases op with
    | join p => exact ih _ (joinRoom_preserves_nonempty s p h)
    | leave p => exact ih _ (leaveRoom_preserves_nonempty s p h)

/-- C4: in every state reachable by join/leave traces from the empty
registry a room is present iff non-empty: the trace invariant says every
registered room has a member, `joinRoom` creates the room lazily with its
first peer, and `leaveRoom` deletes the room as soon as its last peer is
removed. -/
theorem rooms_never_empty (ops : List Op) :
    (∀ L room, alookup L (execOps initServer ops).1.rooms = some room →
        room ≠ []) ∧
    (∀ s (p : Peer), alookup p.ip s.rooms = none →
        alookup p.ip (joinRoom s p).1.rooms = some [(p.id, p)]) ∧
    (∀ s (p : Peer) room, alookup p.ip s.rooms = some room →
        (alookup p.id room).isSome → adel p.id room = [] →
        alookup p.ip (leaveRoom s p).1.rooms = none) := by
  refine ⟨execOps_preserves_nonempty ops initServer (by simp [initServer, alookup]),
    ?_, ?_⟩
  · intro s p habsent
    rw [joinRoom_state, habsent, alookup_aset_self]
    rfl
  · intro s p room hroom hmem hlast
    obtain ⟨q, hq⟩ := Option.isSome_iff_exists.mp hmem
    rw [leaveRoom_present_last s p room q hroom hq hlast]
    exact alookup_adel_self _ _

/-- Witness for C4: after A joins and immediately leaves, the registry is
empty again; joining on a fresh locality creates a singleton room; leaving
as last member deletes the room. -/
theorem rooms_never_empty_witness :
    ((alookup "10.0.0.5"
        (execOps initServer [Op.join peerA, Op.leave peerA]).1.rooms ≠
          some []) ∧
     alookup "10.0.0.5" (joinRoom initServer peerA).1.rooms =
        some [("A", peerA)] ∧
     alookup "10.0.0.5" (leaveRoom (joinRoom initServer peerA).1 peerA).1.rooms =
        none) := by
  refine ⟨fun hc => (rooms_never_empty [Op.join peerA, Op.leave peerA]).1
      "10.0.0.5" [] hc rfl, ?_, ?_⟩
  · exact (rooms_never_empty []).2.1 initServer peerA (by decide)
  · exact (rooms_never_empty []).2.2 (joinRoom initServer peerA).1 peerA
      [("A", peerA)] (by decide) (by decide) (by decide)

/-! ## C8 / C6: leave broadcasts and the keepalive timer -/

theorem eventCount_cons_ne (e e' : Event) (evs : List Event) (h : e ≠ e') :
    eventCount (e :: evs) e' = eventCount evs e' := by
  simp [eventCount, List.filter_cons, h]

theorem eventCount_cons_self (e : Event) (evs : List Event) :
    eventCount (e :: evs) e = eventCount evs e + 1 := by
  simp [eventCount, List.filter_cons]

theorem count_peerLeft_eq (room : Room) (pid m : String)
    (hwf : ∀ kv ∈ room, kv.2.id = kv.1) (hnd : (keys room).Nodup) :
    eventCount (room.map (fun kv => Event.peerLeft kv.2.id pid))
        (Event.peerLeft m pid) =
      if m ∈ keys room then 1 else 0 := by
  induction room with
  | nil => simp [eventCount, keys]
  | cons kv rest ih =>
    have hwf' : ∀ x ∈ rest, x.2.id = x.1 :=
      fun x hx => hwf x (List.mem_cons_of_mem _ hx)
    have hnd0 : kv.1 ∉ keys rest ∧ (keys rest).Nodup := by
      simpa [keys, List.nodup_cons] using hnd
    have hid : kv.2.id = kv.1 := hwf kv (List.mem_cons_self _ _)
    have htail := ih hwf' hnd0.2
    by_cases hm : kv.1 = m
    · have hnotrest : m ∉ keys rest := hm ▸ hnd0.1
      rw [if_neg hnotrest] at htail
      have hmemtrue : m ∈ keys (kv :: rest) := by
        simp [keys, hm.symm]
      rw [if_pos hmemtrue]
      simp only [List.map_cons]
      have hhead : Event.peerLeft kv.2.id pid = Event.peerLeft m pid := by
        rw [hid, hm]
      rw [hhead, eventCount_cons_self, htail]
    · have hhead : Event.peerLeft kv.2.id pid ≠ Event.peerLeft m pid := by
        intro hc
        injection hc with h1 h2
        exact hm (hid ▸ h1)
      have hiff : m ∈ keys (kv :: rest) ↔ m ∈ keys rest := by
        simp only [keys, List.map_cons, List.mem_cons]
        constructor
        · rintro (h | h)
          · exact absurd h.symm hm
          · exact h
        · exact Or.inr
      rw [if_congr hiff rfl rfl]
      simp only [List.map_cons]
      rw [eventCount_cons_ne _ _ _ hhead, htail]

theorem leaveRoom_remaining_once (s : Server) (p : Peer) (room : Room)
    (hroom : alookup p.ip s.rooms = some room)
    (hmem : (alookup p.id room).isSome)
    (hwf : ∀ kv ∈ room, kv.2.id = kv.1)
    (hnd : (keys room).Nodup)
    (h3 : adel p.id room ≠ []) :
    ∀ kv ∈ adel p.id room,
      eventCount (leaveRoom s p).2 (Event.peerLeft kv.2.id p.id) = 1 := by
  obtain ⟨q, hq⟩ := Option.isSome_iff_exists.mp hmem
  have hwf' : ∀ x ∈ adel p.id room, x.2.id = x.1 :=
    fun x hx => hwf x (mem_adel.mp hx).1
  have hnd' : (keys (adel p.id room)).Nodup := keys_nodup_adel hnd
  rw [leaveRoom_present_rest s p room q hroom hq h3]
  intro kv hkv
  have hin : kv.2.id ∈ keys (adel p.id room) := by
    rw [hwf' kv hkv]
    exact List.mem_map_of_mem _ hkv
  have hcount := count_peerLeft_eq (adel p.id room) p.id kv.2.id hwf' hnd'
  rw [if_pos hin] at hcount
  have hne : Event.closeSocket p.id ≠ Event.peerLeft kv.2.id p.id := by
    intro hc; cases hc
  exact (eventCount_cons_ne (Event.closeSocket p.id)
    (Event.peerLeft kv.2.id p.id)
    ((adel p.id room).map (fun kv => Event.peerLeft kv.2.id p.id))
    hne).trans hcount

/-- C8: when a present peer leaves and other members remain, each remaining
member receives exactly one peer-left carrying the departing id and the
departing peer receives none; when the departing peer was the last member,
no peer-left is sent at all. -/
theorem leaveRoom_broadcast (s : Server) (p : Peer) (room : Room)
    (hroom : alookup p.ip s.rooms = some room)
    (hmem : (alookup p.id room).isSome)
    (hwf : ∀ kv ∈ room, kv.2.id = kv.1)
    (hnd : (keys room).Nodup) :
    (adel p.id room ≠ [] →
      (∀ kv ∈ adel p.id room,
        eventCount (leaveRoom s p).2 (Event.peerLeft kv.2.id p.id) = 1) ∧
      (∀ x, Event.peerLeft p.id x ∉ (leaveRoom s p).2)) ∧
    (adel p.id room = [] →
      ∀ m x, Event.peerLeft m x ∉ (leaveRoom s p).2) := by
  obtain ⟨q, hq⟩ := Option.isSome_iff_exists.mp hmem
  have hwf' : ∀ x ∈ adel p.id room, x.2.id = x.1 :=
    fun x hx => hwf x (mem_adel.mp hx).1
  constructor
  · intro h3
    constructor
    · exact leaveRoom_remaining_once s p room hroom hmem hwf hnd h3
    · rw [leaveRoom_present_rest s p room q hroom hq h3]
      intro x hx
      simp only [List.mem_cons] at hx
      rcases hx with hx | hx
      · cases hx
      · obtain ⟨kv, hkv, he⟩ := List.mem_map.mp hx
        injection he with h1 h2
        have : kv.1 ≠ p.id := (mem_adel.mp hkv).2
        exact this ((hwf' kv hkv).symm.trans h1)
  · intro h3
    rw [leaveRoom_present_last s p room q hroom hq h3]
    intro m x hx
    simp at hx

/-- Witness for C8: B leaves the sample room; A gets exactly one
peer-left(B) and B gets none; C leaving its singleton room produces no
peer-left. -/
theorem leaveRoom_broadcast_witness :
    (eventCount (leaveRoom sampleServer peerB).2 (Event.peerLeft "A" "B") = 1) ∧
    (∀ x, Event.peerLeft "B" x ∉ (leaveRoom sampleServer peerB).2) ∧
    (∀ m x, Event.peerLeft m x ∉ (leaveRoom sampleServer peerC).2) := by
  have hB := (leaveRoom_broadcast sampleServer peerB
      [("A", peerA), ("B", peerB)] (by decide) (by decide)
      (by decide) (by decide)).1 (by decide)
  have hC := (leaveRoom_broadcast sampleServer peerC
      [("C", peerC)] (by decide) (by decide) (by decide) (by decide)).2
      (by decide)
  exact ⟨hB.1 ("A", peerA) (by decide), hB.2, hC⟩

/-- C6: a keepalive firing with interval 30s: when `now - lastBeat`
exceeds 2×30s it invokes leave (so with other members present each
remaining member gets exactly one peer-left) and schedules no successor;
otherwise it pings the peer and schedules exactly one next firing at
`now + 30`, leaving the state untouched — so a single missed pong never
disconnects. -/
theorem keepAlive_spec (s : Server) (p : Peer) (now : Nat) (room : Room)
    (hroom : alookup p.ip s.rooms = some room)
    (hmem : (alookup p.id room).isSome)
    (hwf : ∀ kv ∈ room, kv.2.id = kv.1)
    (hnd : (keys room).Nodup) :
    (now - p.lastBeat > 2 * 30 →
      keepAlive s p now = ((leaveRoom s p).1, (leaveRoom s p).2, none) ∧
      (adel p.id room ≠ [] →
        ∀ kv ∈ adel p.id room,
          eventCount (leaveRoom s p).2 (Event.peerLeft kv.2.id p.id) = 1)) ∧
    (¬ now - p.lastBeat > 2 * 30 →
      keepAlive s p now = (s, [Event.ping p.id], some (now + 30))) := by
  constructor
  · intro hdead
    refine ⟨by simp [keepAlive, hdead], fun h3 => ?_⟩
    exact leaveRoom_remaining_once s p room hroom hmem hwf hnd h3
  · intro halive
    simp [keepAlive, halive]

/-- Witness for C6: at `now = 161` with `lastBeat = 100` the peer is 61s
stale (> 60s) and is evicted with one peer-left to A; at `now = 160` it is
pinged and rescheduled for 190. -/
theorem keepAlive_spec_witness :
    (keepAlive sampleServer peerB 161 =
      ((leaveRoom sampleServer peerB).1, (leaveRoom sampleServer peerB).2,
        none)) ∧
    (keepAlive sampleServer peerB 160 =
      (sampleServer, [Event.ping "B"], some 190)) := by
  have h := keepAlive_spec sampleServer peerB 161
      [("A", peerA), ("B", peerB)] (by decide) (by decide) (by decide)
      (by decide)
  have h' := keepAlive_spec sampleServer peerB 160
      [("A", peerA), ("B", peerB)] (by decide) (by decide) (by decide)
      (by decide)
  exact ⟨(h.1 (by decide)).1, h'.2 (by decide)⟩

/-! ## C3: membership refinement and locality invariants -/

theorem adel_eq_nil {β : Type} {k : String} {m : List (String × β)}
    (h : adel k m = []) : ∀ kv ∈ m, kv.1 = k := by
  induction m with
  | nil => simp
  | cons hd rest ih =>
    by_cases hk : hd.1 = k
    · rw [adel, if_pos hk] at h
      intro kv hkv
      rcases List.mem_cons.mp hkv with rfl | hkv
      · exact hk
      · exact ih h kv hkv
    · rw [adel, if_neg hk] at h
      simp at h

theorem mem_filter_ne {id pid : String} {acc : List String} :
    id ∈ acc.filter (fun x => x != pid) ↔ id ∈ acc ∧ id ≠ pid := by
  simp [List.mem_filter]

theorem mem_filter_append_self {id pid : String} {acc : List String} :
    id ∈ acc.filter (fun x => x != pid) ++ [pid] ↔ id ∈ acc ∨ id = pid := by
  rw [List.mem_append, mem_filter_ne, List.mem_singleton]
  constructor
  · rintro (⟨h, _⟩ | h)
    · exact Or.inl h
    · exact Or.inr h
  · rintro (h | h)
    · by_cases he : id = pid
      · exact Or.inr he
      · exact Or.inl ⟨h, he⟩
    · exact Or.inr h

theorem execOps_membership (ops : List Op) :
    ∀ (s : Server) (acc : List String) (L : String),
    (∀ op ∈ ops, op.ip = L) →
    (∀ id, id ∈ roomIds s L ↔ id ∈ acc) →
    ∀ id, id ∈ roomIds (execOps s ops).1 L ↔ id ∈ joinedNotLeft ops acc := by
  induction ops with
  | nil =>
    intro s acc L hL hinv id
    simpa [execOps, joinedNotLeft] using hinv id
  | cons op rest ih =>
    intro s acc L hL hinv id
    have hLrest : ∀ o ∈ rest, o.ip = L :=
      fun o ho => hL o (List.mem_cons_of_mem _ ho)
    have hLop : op.ip = L := hL op (List.mem_cons_self _ _)
    cases op with
    | join p =>
      have hpL : p.ip = L := hLop
      subst hpL
      refine ih (joinRoom s p).1 _ p.ip hLrest (fun id' => ?_) id
      rw [roomIds, joinRoom_state, alookup_aset_self, Option.getD_some,
        mem_keys_aset, mem_filter_append_self]
      rw [← roomIds] at *
      rw [hinv id']
    | leave p =>
      have hpL : p.ip = L := hLop
      subst hpL
      refine ih (leaveRoom s p).1 _ p.ip hLrest (fun id' => ?_) id
      cases h1 : alookup p.ip s.rooms with
      | none =>
        rw [leaveRoom_noop s p (by rw [h1]; rfl)]
        have hempty : roomIds s p.ip = [] := by
          rw [roomIds, h1]; rfl
        rw [mem_filter_ne]
        constructor
        · intro hmem
          exfalso
          have hm : id' ∈ roomIds s p.ip := hmem
          rw [hempty] at hm
          simp at hm
        · rintro ⟨hacc, _⟩
          exact (hinv id').mpr hacc
      | some room =>
        cases h2 : alookup p.id room with
        | none =>
          rw [leaveRoom_noop s p (by rw [h1]; simpa using h2)]
          rw [mem_filter_ne]
          have hroomids : roomIds s p.ip = keys room := by
            rw [roomIds, h1]; rfl
          constructor
          · intro hmem
            have hacc : id' ∈ acc := (hinv id').mp hmem
            have hne : id' ≠ p.id := by
              intro he
              subst he
              rw [hroomids] at hmem
              exact alookup_eq_none_iff.mp h2 hmem
            exact ⟨hacc, hne⟩
          · rintro ⟨hacc, _⟩
            exact (hinv id').mpr hacc
        | some q =>
          have hroomids : roomIds s p.ip = keys room := by
            rw [roomIds, h1]; rfl
          by_cases h3 : adel p.id room = []
          · rw [leaveRoom_present_last s p room q h1 h2 h3]
            have hafter : roomIds (Server.mk (adel p.ip s.rooms)
                (p.id :: s.closed)) p.ip = [] := by
              rw [roomIds]
              simp only
              rw [alookup_adel_self]
              rfl
            rw [hafter, mem_filter_ne]
            simp only [List.not_mem_nil, false_iff]
            rintro ⟨hacc, hne⟩
            have hmem : id' ∈ keys room := by
              rw [← hroomids]; exact (hinv id').mpr hacc
            obtain ⟨kv, hkv, rfl⟩ := List.mem_map.mp hmem
            exact hne (adel_eq_nil h3 kv hkv)
          · rw [leaveRoom_present_rest s p room q h1 h2 h3]
            have hafter : roomIds (Server.mk
                (aset p.ip (adel p.id room) s.rooms) (p.id :: s.closed)) p.ip =
                keys (adel p.id room) := by
              rw [roomIds]
              simp only
              rw [alookup_aset_self]
              rfl
            rw [hafter, mem_filter_ne]
            rw [mem_keys_adel]
            rw [← hroomids, hinv id']

/-! ## Invariant preservation under fresh traces -/

theorem idActive_false {s : Server} {id : String} (h : idActive s id = false) :
    (∀ r ∈ s.rooms, alookup id r.2 = none) ∧ id ∉ s.closed := by
  rw [idActive, Bool.or_eq_false_iff] at h
  obtain ⟨ha, hb⟩ := h
  rw [List.any_eq_false] at ha
  constructor
  · intro r hr
    have := ha r hr
    simpa [Option.not_isSome_iff_eq_none] using this
  · intro hc
    have hb' : List.elem id s.closed = false := hb
    rw [List.elem_iff.mpr hc] at hb'
    simp at hb'

theorem mem_keys_of_mem {β : Type} {kv : String × β} {m : List (String × β)}
    (h : kv ∈ m) : kv.1 ∈ keys m :=
  List.mem_map_of_mem _ h

theorem alookup_none_not_mem {β : Type} {k : String} {m : List (String × β)}
    (h : alookup k m = none) {kv : String × β} (hkv : kv ∈ m) : kv.1 ≠ k := by
  intro he
  exact alookup_eq_none_iff.mp h (he ▸ mem_keys_of_mem hkv)

theorem joinRoom_inv (s : Server) (p : Peer) (hInv : Inv s)
    (hfresh : idActive s p.id = false) : Inv (joinRoom s p).1 := by
  obtain ⟨h1, h2, h3⟩ := hInv
  obtain ⟨hnoroom, hnoclosed⟩ := idActive_false hfresh
  have hrooms : (joinRoom s p).1.rooms =
      aset p.ip (aset p.id p ((alookup p.ip s.rooms).getD [])) s.rooms :=
    joinRoom_state s p
  have hclosed : (joinRoom s p).1.closed = s.closed := rfl
  have hroom0 : ∀ kv ∈ (alookup p.ip s.rooms).getD ([] : Room),
      (p.ip, (alookup p.ip s.rooms).getD ([] : Room)) ∈ s.rooms := by
    intro kv hkv
    cases h0 : alookup p.ip s.rooms with
    | none => rw [h0] at hkv; simp at hkv
    | some rm =>
      simp only [Option.getD_some]
      exact alookup_mem h0
  refine ⟨?_, ?_, ?_⟩
  · intro r hr kv hkv
    rw [hrooms] at hr
    rcases mem_aset.mp hr with ⟨hrs, _⟩ | rfl
    · exact h1 r hrs kv hkv
    · rcases mem_aset.mp hkv with ⟨hk0, _⟩ | rfl
      · exact h1 _ (hroom0 kv hk0) kv hk0
      · exact ⟨rfl, rfl⟩
  · intro r1 hr1 r2 hr2 kv1 hk1 kv2 hk2 heq
    rw [hrooms] at hr1 hr2
    rcases mem_aset.mp hr1 with ⟨hrs1, hne1⟩ | rfl
    · rcases mem_aset.mp hr2 with ⟨hrs2, hne2⟩ | rfl
      · exact h2 r1 hrs1 r2 hrs2 kv1 hk1 kv2 hk2 heq
      · exfalso
        rcases mem_aset.mp hk2 with ⟨hk0, _⟩ | rfl
        · exact hne1 (congrArg Prod.fst
            (h2 r1 hrs1 _ (hroom0 kv2 hk0) kv1 hk1 kv2 hk0 heq))
        · exact alookup_none_not_mem (hnoroom r1 hrs1) hk1 heq
    · rcases mem_aset.mp hr2 with ⟨hrs2, hne2⟩ | rfl
      · exfalso
        rcases mem_aset.mp hk1 with ⟨hk0, _⟩ | rfl
        · exact hne2 (congrArg Prod.fst
            (h2 r2 hrs2 _ (hroom0 kv1 hk0) kv2 hk2 kv1 hk0 heq.symm))
        · exact alookup_none_not_mem (hnoroom r2 hrs2) hk2 heq.symm
      · rfl
  · intro r hr kv hkv
    rw [hrooms] at hr
    rw [hclosed]
    rcases mem_aset.mp hr with ⟨hrs, _⟩ | rfl
    · exact h3 r hrs kv hkv
    · rcases mem_aset.mp hkv with ⟨hk0, _⟩ | rfl
      · exact h3 _ (hroom0 kv hk0) kv hk0
      · exact hnoclosed

theorem leaveRoom_inv (s : Server) (p : Peer) (hInv : Inv s) :
    Inv (leaveRoom s p).1 := by
  obtain ⟨h1, h2, h3⟩ := hInv
  cases hl1 : alookup p.ip s.rooms with
  | none =>
    rw [leaveRoom_noop s p (by rw [hl1]; rfl)]
    exact ⟨h1, h2, h3⟩
  | some room =>
    cases hl2 : alookup p.id room with
    | none =>
      rw [leaveRoom_noop s p (by rw [hl1]; simpa using hl2)]
      exact ⟨h1, h2, h3⟩
    | some q =>
      have hroommem : (p.ip, room) ∈ s.rooms := alookup_mem hl1
      have hqmem : (p.id, q) ∈ room := alookup_mem hl2
      have honlyroom : ∀ r ∈ s.rooms, r.1 ≠ p.ip → ∀ kv ∈ r.2, kv.1 ≠ p.id := by
        intro r hr hne kv hkv he
        exact hne (congrArg Prod.fst
          (h2 r hr _ hroommem kv hkv (p.id, q) hqmem he))
      by_cases h3' : adel p.id room = []
      · rw [leaveRoom_present_last s p room q hl1 hl2 h3']
        refine ⟨?_, ?_, ?_⟩
        · intro r hr kv hkv
          exact h1 r (mem_adel.mp hr).1 kv hkv
        · intro r1 hr1 r2 hr2 kv1 hk1 kv2 hk2 heq
          exact h2 r1 (mem_adel.mp hr1).1 r2 (mem_adel.mp hr2).1
            kv1 hk1 kv2 hk2 heq
        · intro r hr kv hkv
          obtain ⟨hrs, hne⟩ := mem_adel.mp hr
          intro hc
          rcases List.mem_cons.mp hc with he | he
          · exact honlyroom r hrs hne kv hkv he
          · exact h3 r hrs kv hkv he
      · rw [leaveRoom_present_rest s p room q hl1 hl2 h3']
        refine ⟨?_, ?_, ?_⟩
        · intro r hr kv hkv
          rcases mem_aset.mp hr with ⟨hrs, _⟩ | rfl
          · exact h1 r hrs kv hkv
          · exact h1 _ hroommem kv (mem_adel.mp hkv).1
        · intro r1 hr1 r2 hr2 kv1 hk1 kv2 hk2 heq
          rcases mem_aset.mp hr1 with ⟨hrs1, hne1⟩ | rfl
          · rcases mem_aset.mp hr2 with ⟨hrs2, hne2⟩ | rfl
            · exact h2 r1 hrs1 r2 hrs2 kv1 hk1 kv2 hk2 heq
            · exfalso
              have hk2' : kv2 ∈ room := (mem_adel.mp hk2).1
              exact hne1 (congrArg Prod.fst
                (h2 r1 hrs1 _ hroommem kv1 hk1 kv2 hk2' heq))
          · rcases mem_aset.mp hr2 with ⟨hrs2, hne2⟩ | rfl
            · exfalso
              have hk1' : kv1 ∈ room := (mem_adel.mp hk1).1
              exact hne2 (congrArg Prod.fst
                (h2 r2 hrs2 _ hroommem kv2 hk2 kv1 hk1' heq.symm))
            · rfl
        · intro r hr kv hkv
          intro hc
          rcases mem_aset.mp hr with ⟨hrs, hne⟩ | rfl
          · rcases List.mem_cons.mp hc with he | he
            · exact honlyroom r hrs hne kv hkv he
            · exact h3 r hrs kv hkv he
          · rcases List.mem_cons.mp hc with he | he
            · exact (mem_adel.mp hkv).2 he
            · exact h3 _ hroommem kv (mem_adel.mp hkv).1 he

/-! ## Socket-close accounting -/

theorem eventCount_nil (e : Event) : eventCount [] e = 0 := rfl

theorem eventCount_append (a b : List Event) (e : Event) :
    eventCount (a ++ b) e = eventCount a e + eventCount b e := by
  simp [eventCount, List.filter_append]

theorem eventCount_eq_zero {evs : List Event} {e : Event}
    (h : ∀ x ∈ evs, x ≠ e) : eventCount evs e = 0 := by
  induction evs with
  | nil => rfl
  | cons a l ih =>
    rw [eventCount_cons_ne a e l (h a (List.mem_cons_self _ _))]
    exact ih fun x hx => h x (List.mem_cons_of_mem _ hx)

theorem joinRoom_no_close (s : Server) (p : Peer) (id : String) :
    eventCount (joinRoom s p).2 (Event.closeSocket id) = 0 := by
  apply eventCount_eq_zero
  intro x hx
  rcases List.mem_append.mp hx with hx | hx
  · obtain ⟨kv, _, he⟩ := List.mem_map.mp hx
    rw [← he]
    intro hc
    cases hc
  · rw [List.mem_singleton] at hx
    rw [hx]
    intro hc
    cases hc

theorem close_count_cons (tail : List Event) (pid id : String)
    (htail : ∀ x ∈ tail, ∀ j, x ≠ Event.closeSocket j) :
    eventCount (Event.closeSocket pid :: tail) (Event.closeSocket id) =
      if id = pid then 1 else 0 := by
  by_cases hid : id = pid
  · subst hid
    rw [if_pos rfl, eventCount_cons_self,
      eventCount_eq_zero (fun x hx => htail x hx id)]
  · rw [if_neg hid,
      eventCount_cons_ne _ _ _ (by intro hc; injection hc with h; exact hid h.symm),
      eventCount_eq_zero (fun x hx => htail x hx id)]

theorem close_ledger_step (cl : List String) (pid id : String)
    (hnot : pid ∉ cl) :
    (if id = pid then 1 else 0) + (if id ∈ cl then 1 else 0) =
      if id ∈ pid :: cl then 1 else 0 := by
  by_cases hid : id = pid
  · subst hid
    rw [if_pos rfl, if_neg hnot, if_pos (List.mem_cons_self _ _)]
  · rw [if_neg hid]
    have hiff : (id ∈ pid :: cl) ↔ id ∈ cl := by
      simp [List.mem_cons, hid]
    rw [if_congr hiff rfl rfl]
    omega

theorem leaveRoom_close_count (s : Server) (p : Peer) (hInv : Inv s)
    (id : String) :
    eventCount (leaveRoom s p).2 (Event.closeSocket id) +
      (if id ∈ s.closed then 1 else 0) =
      (if id ∈ (leaveRoom s p).1.closed then 1 else 0) := by
  cases hl1 : alookup p.ip s.rooms with
  | none =>
    rw [leaveRoom_noop s p (by rw [hl1]; rfl)]
    simp [eventCount]
  | some room =>
    cases hl2 : alookup p.id room with
    | none =>
      rw [leaveRoom_noop s p (by rw [hl1]; simpa using hl2)]
      simp [eventCount]
    | some q =>
      have hnotclosed : p.id ∉ s.closed :=
        hInv.2.2 _ (alookup_mem hl1) _ (alookup_mem hl2)
      by_cases h3 : adel p.id room = []
      · rw [leaveRoom_present_last s p room q hl1 hl2 h3]
        have hc := close_count_cons [] p.id id (by simp)
        have hl := close_ledger_step s.closed p.id id hnotclosed
        rw [hc]
        exact hl
      · rw [leaveRoom_present_rest s p room q hl1 hl2 h3]
        have hc := close_count_cons
          ((adel p.id room).map (fun kv => Event.peerLeft kv.2.id p.id))
          p.id id ?_
        · rw [hc]
          exact close_ledger_step s.closed p.id id hnotclosed
        · intro x hx j
          obtain ⟨kv, _, he⟩ := List.mem_map.mp hx
          rw [← he]
          intro hcon
          cases hcon

theorem execOps_inv_count (ops : List Op) :
    ∀ (s : Server), Inv s → freshTrace s ops = true →
    Inv (execOps s ops).1 ∧
    (∀ id, eventCount (execOps s ops).2 (Event.closeSocket id) +
        (if id ∈ s.closed then 1 else 0) =
        (if id ∈ (execOps s ops).1.closed then 1 else 0)) := by
  induction ops with
  | nil =>
    intro s hInv _
    exact ⟨hInv, fun id => by simp [execOps, eventCount]⟩
  | cons op rest ih =>
    intro s hInv hf
    cases op with
    | join p =>
      have hfc : (!idActive s p.id && freshTrace (joinRoom s p).1 rest) =
          true := hf
      have hf2 : freshTrace (joinRoom s p).1 rest = true := by
        cases hft : freshTrace (joinRoom s p).1 rest
        · rw [hft, Bool.and_false] at hfc; simp at hfc
        · rfl
      have hf1 : idActive s p.id = false := by
        cases hia : idActive s p.id
        · rfl
        · rw [hia] at hfc; simp at hfc
      have hInv' := joinRoom_inv s p hInv hf1
      obtain ⟨hIf, hcnt⟩ := ih (joinRoom s p).1 hInv' hf2
      refine ⟨hIf, fun id => ?_⟩
      have hev : (execOps s (Op.join p :: rest)).2 =
          (joinRoom s p).2 ++ (execOps (joinRoom s p).1 rest).2 := rfl
      have hst : (execOps s (Op.join p :: rest)).1 =
          (execOps (joinRoom s p).1 rest).1 := rfl
      rw [hev, hst, eventCount_append, joinRoom_no_close]
      have hclosed : (joinRoom s p).1.closed = s.closed := rfl
      have hrest := hcnt id
      rw [hclosed] at hrest
      omega
    | leave p =>
      have hf' : freshTrace (leaveRoom s p).1 rest = true := hf
      have hInv' := leaveRoom_inv s p hInv
      obtain ⟨hIf, hcnt⟩ := ih (leaveRoom s p).1 hInv' hf'
      refine ⟨hIf, fun id => ?_⟩
      have hev : (execOps s (Op.leave p :: rest)).2 =
          (leaveRoom s p).2 ++ (execOps (leaveRoom s p).1 rest).2 := rfl
      have hst : (execOps s (Op.leave p :: rest)).1 =
          (execOps (leaveRoom s p).1 rest).1 := rfl
      rw [hev, hst, eventCount_append]
      have hstep := leaveRoom_close_count s p hInv id
      have hrest := hcnt id
      omega

/-! ## C3 and C9 claim theorems -/

/-- C3: for any trace whose operations all touch one locality, the room's
membership after the trace (from the empty registry) is exactly the set of
ids that joined and have not left since; and on fresh traces every
reachable state keeps every peer only in the room keyed by its own
locality, with each id in at most one room. -/
theorem membership_and_locality_spec (ops : List Op) :
    (∀ L, (∀ op ∈ ops, op.ip = L) →
      ∀ id, id ∈ roomIds (execOps initServer ops).1 L ↔
        id ∈ joinedNotLeft ops []) ∧
    (freshTrace initServer ops = true →
      (∀ r ∈ (execOps initServer ops).1.rooms, ∀ kv ∈ r.2,
          kv.2.id = kv.1 ∧ kv.2.ip = r.1) ∧
      (∀ r1 ∈ (execOps initServer ops).1.rooms,
          ∀ r2 ∈ (execOps initServer ops).1.rooms,
          ∀ kv1 ∈ r1.2, ∀ kv2 ∈ r2.2, kv1.1 = kv2.1 → r1 = r2)) := by
  constructor
  · intro L hL id
    refine execOps_membership ops initServer [] L hL (fun id' => ?_) id
    simp [roomIds, initServer, alookup, keys]
  · intro hf
    have hInv0 : Inv initServer := by
      refine ⟨fun r hr => ?_, fun r hr => ?_, fun r hr => ?_⟩ <;>
        simp [initServer] at hr
    have h := execOps_inv_count ops initServer hInv0 hf
    exact ⟨h.1.1, h.1.2.1⟩

/-- Witness for C3: trace join A, join B, leave A in one locality leaves
exactly B; the fresh two-locality trace join A, join C satisfies the
locality invariants. -/
theorem membership_and_locality_spec_witness :
    (("B" ∈ roomIds (execOps initServer
          [Op.join peerA, Op.join peerB, Op.leave peerA]).1 "10.0.0.5" ↔
        "B" ∈ joinedNotLeft [Op.join peerA, Op.join peerB, Op.leave peerA] []) ∧
      ("A" ∈ roomIds (execOps initServer
          [Op.join peerA, Op.join peerB, Op.leave peerA]).1 "10.0.0.5" ↔
        "A" ∈ joinedNotLeft [Op.join peerA, Op.join peerB, Op.leave peerA] [])) ∧
    (∀ r ∈ (execOps initServer [Op.join peerA, Op.join peerC]).1.rooms,
        ∀ kv ∈ r.2, kv.2.id = kv.1 ∧ kv.2.ip = r.1) :=
  ⟨⟨(membership_and_locality_spec
        [Op.join peerA, Op.join peerB, Op.leave peerA]).1 "10.0.0.5"
        (by decide) "B",
    (membership_and_locality_spec
        [Op.join peerA, Op.join peerB, Op.leave peerA]).1 "10.0.0.5"
        (by decide) "A"⟩,
   ((membership_and_locality_spec [Op.join peerA, Op.join peerC]).2
        (by decide)).1⟩

/-- C9: on fresh traces from the empty registry every peer present in a
room has a not-yet-closed socket; no id's socket is ever closed more than
once across the whole trace; joins never close a socket; and `leaveRoom`
closes the departing peer's socket exactly when it actually removes the
peer — in the same atomic operation. -/
theorem socket_close_spec (ops : List Op)
    (hf : freshTrace initServer ops = true) :
    (∀ r ∈ (execOps initServer ops).1.rooms, ∀ kv ∈ r.2,
        kv.1 ∉ (execOps initServer ops).1.closed) ∧
    (∀ id, eventCount (execOps initServer ops).2 (Event.closeSocket id) ≤ 1) ∧
    (∀ s (p : Peer) (id : String),
        Event.closeSocket id ∉ (joinRoom s p).2) ∧
    (∀ s (p : Peer), Event.closeSocket p.id ∈ (leaveRoom s p).2 ↔
        (alookup p.ip s.rooms).bind (alookup p.id) ≠ none) := by
  have hInv0 : Inv initServer := by
    refine ⟨fun r hr => ?_, fun r hr => ?_, fun r hr => ?_⟩ <;>
      simp [initServer] at hr
  obtain ⟨hIf, hcnt⟩ := execOps_inv_count ops initServer hInv0 hf
  refine ⟨hIf.2.2, fun id => ?_, ?_, ?_⟩
  · have h := hcnt id
    have hinit : (if id ∈ initServer.closed then 1 else 0) = 0 := by
      simp [initServer]
    rw [hinit] at h
    by_cases hmem : id ∈ (execOps initServer ops).1.closed
    · rw [if_pos hmem] at h; omega
    · rw [if_neg hmem] at h; omega
  · intro s p id hx
    rcases List.mem_append.mp hx with hx | hx
    · obtain ⟨kv, _, he⟩ := List.mem_map.mp hx
      cases he
    · rw [List.mem_singleton] at hx
      cases hx
  · intro s p
    constructor
    · intro hmem hnone
      rw [leaveRoom_noop s p hnone] at hmem
      simp at hmem
    · intro hne
      cases hl1 : alookup p.ip s.rooms with
      | none => exact absurd (by rw [hl1]; rfl) hne
      | some room =>
        cases hl2 : alookup p.id room with
        | none => exact absurd (by rw [hl1]; simpa using hl2) hne
        | some q =>
          by_cases h3 : adel p.id room = []
          · rw [leaveRoom_present_last s p room q hl1 hl2 h3]
            exact List.mem_singleton.mpr rfl
          · rw [leaveRoom_present_rest s p room q hl1 hl2 h3]
            exact List.mem_cons_self _ _

/-- Witness for C9: over the fresh trace join A, join B, leave A, leave A
the socket of A is closed exactly once, and B — still in its room — is not
closed. -/
theorem socket_close_spec_witness :
    (eventCount (execOps initServer
        [Op.join peerA, Op.join peerB, Op.leave peerA, Op.leave peerA]).2
      (Event.closeSocket "A") ≤ 1) ∧
    (∀ r ∈ (execOps initServer
        [Op.join peerA, Op.join peerB, Op.leave peerA, Op.leave peerA]).1.rooms,
      ∀ kv ∈ r.2, kv.1 ∉ (execOps initServer
        [Op.join peerA, Op.join peerB, Op.leave peerA, Op.leave peerA]).1.closed) :=
  ⟨(socket_close_spec
      [Op.join peerA, Op.join peerB, Op.leave peerA, Op.leave peerA]
      (by decide)).2.1 "A",
   (socket_close_spec
      [Op.join peerA, Op.join peerB, Op.leave peerA, Op.leave peerA]
      (by decide)).1⟩

end Gosnapdrop
